import Mathlib

/-!
Verification development for the `baselib` token library
(`wind::utils::encrypt`, `wind::utils::pwt`, `wind::atomic_unordered_map`).

Byte strings (`std::string`) are modelled as `Str := List Nat`.
The protobuf (de)serializer consumed by the code is an external
collaborator; it is modelled here as a concrete schema-based codec with
proto3 semantics: a message is a sequence of tagged length-delimited
fields, fields holding their default value are omitted on the wire, and
absent fields read back as defaults.  Lengths are single symbols of the
(unbounded) alphabet.  The OpenSSL AES-256-CBC primitive is likewise
external and is modelled as a concrete pure function of key and input,
mirroring the fact that `AlgorithmBase::Encrypt` builds a fresh cipher
context per call with a fixed IV, so its output depends only on `key_`
and `data`.
-/

set_option autoImplicit false

namespace Wind

/-- Byte strings (`std::string` contents). -/
abbrev Str := List Nat

/-- Error kinds surfaced by the C++ code as exceptions. -/
inductive Err where
  | invalidArgument
  | runtimeError
  deriving DecidableEq, Repr

/-- `google::protobuf::Timestamp`: seconds and nanos since the Unix epoch. -/
structure Ts where
  seconds : Int
  nanos : Int
  deriving DecidableEq, Repr

/-- The strict order on timestamps used by `exp_.value() < GetTimestamp()`
(from `google/protobuf/util/time_util.h`): compare seconds, then nanos. -/
def tsLt (a b : Ts) : Bool :=
  a.seconds < b.seconds || (a.seconds == b.seconds && a.nanos < b.nanos)

/-- `wind::utils::time::GetTimestamp(seconds)`: the current instant advanced
by `seconds` whole seconds (adding whole seconds leaves the nanos part). -/
def getTimestamp (now : Ts) (seconds : Nat) : Ts :=
  { seconds := now.seconds + (seconds : Int), nanos := now.nanos }

/-- `google::protobuf::Any`: a type tag plus opaque bytes. -/
structure AnyMsg where
  typeUrl : Str
  value : Str
  deriving DecidableEq, Repr

/-! ## `wind::atomic_unordered_map` (specialised to the uses in the claims)

The underlying `std::unordered_map` is modelled as an association list
with no duplicate keys; iteration order is the list order. -/

/-- Association-list model of the map contents. -/
abbrev AMap (K V : Type) := List (K × V)

/-- `std::unordered_map::find` / value lookup. -/
def alookup {K V : Type} [DecidableEq K] (k : K) : AMap K V → Option V
  | [] => none
  | (k2, v) :: rest => if k2 = k then some v else alookup k rest

/-- `atomic_unordered_map::contains`. -/
def acontains {K V : Type} [DecidableEq K] (k : K) (m : AMap K V) : Bool :=
  (alookup k m).isSome

/-- `atomic_unordered_map::insert`: inserts only if the key is absent,
never overwrites; returns whether it inserted. -/
def ainsert {K V : Type} [DecidableEq K] (k : K) (v : V) (m : AMap K V) :
    AMap K V × Bool :=
  if acontains k m then (m, false) else (m ++ [(k, v)], true)

/-- Folding `insert` over a list of pairs, as the `Decode` loops do. -/
def ainsertAll {K V : Type} [DecidableEq K] (m : AMap K V) (l : List (K × V)) :
    AMap K V :=
  l.foldl (fun acc kv => (ainsert kv.1 kv.2 acc).1) m

/-- `atomic_unordered_map::operator[]` as written in the source
(`atomic_unordered_map.h:153-156`): under a shared lock it evaluates
`map_[key]`, i.e. `std::unordered_map::operator[]`, which inserts a
default-constructed value when the key is absent.  Returns the value it
read together with the resulting map contents. -/
def aindex {K V : Type} [DecidableEq K] (dflt : V) (m : AMap K V) (k : K) :
    V × AMap K V :=
  match alookup k m with
  | some v => (v, m)
  | none => (dflt, m ++ [(k, dflt)])

/-- `atomic_unordered_map::erase`. -/
def aerase {K V : Type} [DecidableEq K] (k : K) : AMap K V → AMap K V
  | [] => []
  | (k2, v) :: rest => if k2 = k then rest else (k2, v) :: aerase k rest

/-- `atomic_unordered_map::keys`: the keys in iteration order. -/
def akeys {K V : Type} (m : AMap K V) : List K := m.map Prod.fst

/-- No duplicate keys: the representation invariant of `std::unordered_map`. -/
abbrev anodup {K V : Type} [DecidableEq K] (m : AMap K V) : Prop :=
  (akeys m).Nodup

/-! ## `wind::utils::encrypt` -/

/-- Models the external OpenSSL `EVP` AES-256-CBC encryption used by
`AlgorithmBase::Encrypt`: a fresh cipher context is created per call and
the IV argument is fixed, so the transform is a pure function of the key
bytes and the input bytes.  Only that functional dependence matters to
the development; the concrete body is a stand-in for the cipher. -/
def evpAes256Cbc (key data : Str) : Str :=
  data.length :: data.map (fun b => (b + key.foldl (· + ·) 0) % 256)

/-- `wind::utils::encrypt::Algorithm` data: key, IV, salt. -/
structure AlgorithmState where
  key : Str
  iv : Str
  salt : Str
  deriving DecidableEq, Repr

/-- `AlgorithmBase::Encrypt(data)` (src/unnamed/part_007:304-333): throws
`std::invalid_argument` when the key or the data is empty, otherwise
returns the AES-256-CBC transform of `data` keyed by `key_`. -/
def algEncrypt (a : AlgorithmState) (data : Str) : Except Err Str :=
  if a.key = [] then .error .invalidArgument
  else if data = [] then .error .invalidArgument
  else .ok (evpAes256Cbc a.key data)

/-! ## Wire codec

Model of the external schema-based serializer (`pwt.pb.h`, generated by
protobuf).  A message is a concatenation of tagged length-delimited
fields; scalar fields holding their default are omitted (proto3), every
element of a repeated field is emitted, and parsing folds a per-field
update over the fields, returning defaults for absent ones. -/

/-- One tagged length-delimited field on the wire. -/
def fieldEnc (tag : Nat) (payload : Str) : Str := tag :: payload.length :: payload

/-- A scalar field, omitted when it holds the default (empty) value. -/
def optField (tag : Nat) (payload : Str) : Str :=
  if payload = [] then [] else fieldEnc tag payload

/-- Worker for the generic message parser, structurally recursive on a
fuel bound (any fuel at least the input length gives the same answer). -/
def parseFieldsAux {M : Type} (upd : Nat → Str → M → Option M) :
    Nat → Str → M → Option M
  | _, [], acc => some acc
  | _, [_], _ => none
  | 0, _ :: _ :: _, _ => none
  | fuel + 1, t :: n :: rest, acc =>
    if n ≤ rest.length then
      match upd t (rest.take n) acc with
      | none => none
      | some acc2 => parseFieldsAux upd fuel (rest.drop n) acc2
    else none

/-- Generic message parser: reads tagged length-delimited fields and folds
the per-field update `upd` over them; fails on a truncated tail or when
`upd` rejects a field. -/
def parseFields {M : Type} (upd : Nat → Str → M → Option M)
    (s : Str) (acc : M) : Option M :=
  parseFieldsAux upd s.length s acc

/-- Signed-integer coding used inside the `Timestamp` submessage model:
a sign symbol followed by the magnitude. -/
def encInt (x : Int) : Str := [if x < 0 then 1 else 0, x.natAbs]

/-- Inverse of `encInt`. -/
def decInt (sgn mag : Nat) : Int := if sgn = 0 then (mag : Int) else -(mag : Int)

/-- Serialized `google::protobuf::Timestamp` payload. -/
def serTs (t : Ts) : Str := encInt t.seconds ++ encInt t.nanos

/-- Parse a `Timestamp` payload. -/
def parseTs : Str → Option Ts
  | [a, b, c, d] => some ⟨decInt a b, decInt c d⟩
  | _ => none

/-- An optional `Timestamp` field: omitted when absent. -/
def optTsField (tag : Nat) : Option Ts → Str
  | none => []
  | some t => fieldEnc tag (serTs t)

/-- Serialized `(key, value)` custom-field pair submessage. -/
def serKV (kv : Str × Str) : Str := optField 1 kv.1 ++ optField 2 kv.2

/-- Field update for the pair submessage. -/
def updKV : Nat → Str → Str × Str → Option (Str × Str)
  | 1, b, p => some (b, p.2)
  | 2, b, p => some (p.1, b)
  | _, _, _ => none

/-- Parse a `(key, value)` pair submessage. -/
def parseKV (s : Str) : Option (Str × Str) := parseFields updKV s ([], [])

/-- Serialized `google::protobuf::Any`. -/
def serAny (a : AnyMsg) : Str := optField 1 a.typeUrl ++ optField 2 a.value

/-- Field update for `Any`. -/
def updAny : Nat → Str → AnyMsg → Option AnyMsg
  | 1, b, a => some { a with typeUrl := b }
  | 2, b, a => some { a with value := b }
  | _, _, _ => none

/-- Parse a `google::protobuf::Any`. -/
def parseAny (s : Str) : Option AnyMsg := parseFields updAny s ⟨[], []⟩

/-- `HeaderMessage` from `pwt.proto`: typ, kid, pwk, x5u, repeated custom. -/
structure HeaderMessage where
  typ : Str
  kid : Str
  pwk : Str
  x5u : Str
  custom : List (Str × Str)
  deriving DecidableEq, Repr

/-- Serialize a `HeaderMessage`. -/
def serHeaderMsg (m : HeaderMessage) : Str :=
  optField 1 m.typ ++ optField 2 m.kid ++ optField 3 m.pwk ++ optField 4 m.x5u ++
    (m.custom.map (fun kv => fieldEnc 5 (serKV kv))).flatten

/-- Field update for `HeaderMessage`. -/
def updHeader : Nat → Str → HeaderMessage → Option HeaderMessage
  | 1, b, m => some { m with typ := b }
  | 2, b, m => some { m with kid := b }
  | 3, b, m => some { m with pwk := b }
  | 4, b, m => some { m with x5u := b }
  | 5, b, m => (parseKV b).map (fun kv => { m with custom := m.custom ++ [kv] })
  | _, _, _ => none

/-- Parse a `HeaderMessage` (`ParseFromString`). -/
def parseHeaderMsg (s : Str) : Option HeaderMessage :=
  parseFields updHeader s ⟨[], [], [], [], []⟩

/-- `PayloadMessage` from `pwt.proto`: iss, sub, pbi, scalar aud, repeated
aud_vec, optional exp/nbf/iat, repeated custom. -/
structure PayloadMessage where
  iss : Str
  sub : Str
  pbi : Str
  aud : Str
  audVec : List Str
  exp : Option Ts
  nbf : Option Ts
  iat : Option Ts
  custom : List (Str × Str)
  deriving DecidableEq, Repr

/-- Serialize a `PayloadMessage`. -/
def serPayloadMsg (m : PayloadMessage) : Str :=
  optField 1 m.iss ++ optField 2 m.sub ++ optField 3 m.pbi ++ optField 4 m.aud ++
    (m.audVec.map (fun a => fieldEnc 5 a)).flatten ++
    optTsField 6 m.exp ++ optTsField 7 m.nbf ++ optTsField 8 m.iat ++
    (m.custom.map (fun kv => fieldEnc 9 (serKV kv))).flatten

/-- Field update for `PayloadMessage`. -/
def updPayload : Nat → Str → PayloadMessage → Option PayloadMessage
  | 1, b, m => some { m with iss := b }
  | 2, b, m => some { m with sub := b }
  | 3, b, m => some { m with pbi := b }
  | 4, b, m => some { m with aud := b }
  | 5, b, m => some { m with audVec := m.audVec ++ [b] }
  | 6, b, m => (parseTs b).map (fun t => { m with exp := some t })
  | 7, b, m => (parseTs b).map (fun t => { m with nbf := some t })
  | 8, b, m => (parseTs b).map (fun t => { m with iat := some t })
  | 9, b, m => (parseKV b).map (fun kv => { m with custom := m.custom ++ [kv] })
  | _, _, _ => none

/-- Parse a `PayloadMessage`. -/
def parsePayloadMsg (s : Str) : Option PayloadMessage :=
  parseFields updPayload s ⟨[], [], [], [], [], none, none, none, []⟩

/-- `InstanceMessage` from `pwt.proto`: head bytes plus optional custom
(extension blob) bytes. -/
structure InstanceMessage where
  head : Str
  custom : Str
  deriving DecidableEq, Repr

/-- Serialize an `InstanceMessage`. -/
def serInstanceMsg (m : InstanceMessage) : Str :=
  optField 1 m.head ++ optField 2 m.custom

/-- Field update for `InstanceMessage`. -/
def updInstance : Nat → Str → InstanceMessage → Option InstanceMessage
  | 1, b, m => some { m with head := b }
  | 2, b, m => some { m with custom := b }
  | _, _, _ => none

/-- Parse an `InstanceMessage`. -/
def parseInstanceMsg (s : Str) : Option InstanceMessage :=
  parseFields updInstance s ⟨[], []⟩

/-- `PWTMessage` from `pwt.proto`: header bytes, payload bytes, signature. -/
structure PWTMessage where
  header : Str
  payload : Str
  signature : Str
  deriving DecidableEq, Repr

/-- Serialize a `PWTMessage`. -/
def serPWTMsg (m : PWTMessage) : Str :=
  optField 1 m.header ++ optField 2 m.payload ++ optField 3 m.signature

/-- Field update for `PWTMessage`. -/
def updPWT : Nat → Str → PWTMessage → Option PWTMessage
  | 1, b, m => some { m with header := b }
  | 2, b, m => some { m with payload := b }
  | 3, b, m => some { m with signature := b }
  | _, _, _ => none

/-- Parse a `PWTMessage`. -/
def parsePWTMsg (s : Str) : Option PWTMessage :=
  parseFields updPWT s ⟨[], [], []⟩

/-! ## `wind::utils::pwt` data model -/

/-- The audience sum type:
`std::variant<std::string, std::vector<std::string>>`. -/
inductive Aud where
  | scalar (s : Str)
  | list (l : List Str)
  deriving DecidableEq, Repr

/-- `PWTHeader` data: typ, kid, pwk, x5u, custom string fields, optional
extension blob. -/
structure HeaderState where
  typ : Str
  kid : Str
  pwk : Str
  x5u : Str
  custom : AMap Str Str
  blob : Option AnyMsg
  deriving DecidableEq, Repr

/-- `PWTPayload` data: iss, sub, pbi nonce, audience, optional exp/nbf/iat,
custom string fields, optional extension blob. -/
structure PayloadState where
  iss : Str
  sub : Str
  pbi : Str
  aud : Aud
  exp : Option Ts
  nbf : Option Ts
  iat : Option Ts
  custom : AMap Str Str
  blob : Option AnyMsg
  deriving DecidableEq, Repr

/-- The custom-field section `PWTHeaderBase::Encode` emits: it iterates
`custom_fields_.keys()` and reads each value back with `operator[]`
(every lookup hits, so no insertion happens). -/
def customSection (m : AMap Str Str) : List (Str × Str) :=
  (akeys m).map (fun k => (k, (alookup k m).getD []))

/-- The `InstanceMessage::custom` bytes: the serialized extension blob
when present (`if (custom_header_.has_value()) ist_msg.set_custom(...)`)
and the empty default otherwise. -/
def blobBytes : Option AnyMsg → Str
  | some a => serAny a
  | none => []

/-- `PWTHeaderBase::Encode` (src/utils/encrypt.cc:171-196): build the
`HeaderMessage`, wrap it in an `InstanceMessage` whose `custom` carries
the serialized extension blob when present, and serialize. -/
def headerEncode (h : HeaderState) : Str :=
  serInstanceMsg
    { head := serHeaderMsg ⟨h.typ, h.kid, h.pwk, h.x5u, customSection h.custom⟩
      custom := blobBytes h.blob }

/-- `PWTHeaderBase::Decode` (src/utils/encrypt.cc:205-239): false on empty
or unparseable input; otherwise replaces the scalar fields, folds
`insert` over the message custom pairs (without clearing the map first),
and re-parses the extension blob. -/
def headerDecode (h : HeaderState) (msg : Str) : Bool × HeaderState :=
  if msg = [] then (false, h)
  else match parseInstanceMsg msg with
  | none => (false, h)
  | some ist =>
    match parseHeaderMsg ist.head with
    | none => (false, h)
    | some hm =>
      let h2 : HeaderState :=
        { h with typ := hm.typ, kid := hm.kid, pwk := hm.pwk, x5u := hm.x5u,
                 custom := ainsertAll h.custom hm.custom }
      if ist.custom = [] then (true, { h2 with blob := none })
      else match parseAny ist.custom with
        | none => (false, h2)
        | some a => (true, { h2 with blob := some a })

/-- `PWTPayloadBase::Encode` (src/utils/encrypt.cc:268-323): build the
`PayloadMessage` (scalar audience vs repeated audience according to the
variant), wrap and serialize. -/
def payloadEncode (p : PayloadState) : Str :=
  serInstanceMsg
    { head := serPayloadMsg
        { iss := p.iss, sub := p.sub, pbi := p.pbi
          aud := match p.aud with
            | .scalar s => s
            | .list _ => []
          audVec := match p.aud with
            | .scalar _ => []
            | .list l => l
          exp := p.exp, nbf := p.nbf, iat := p.iat
          custom := customSection p.custom }
      custom := blobBytes p.blob }

/-- `PWTPayloadBase::Decode` (src/utils/encrypt.cc:332-388): false on empty
or unparseable input; otherwise replaces iss/sub/pbi, folds `insert` over
the message custom pairs, decodes a non-empty repeated audience as a list
and otherwise the scalar audience, unconditionally stores the (possibly
default) exp/nbf/iat timestamps, and re-parses the extension blob. -/
def payloadDecode (p : PayloadState) (msg : Str) : Bool × PayloadState :=
  if msg = [] then (false, p)
  else match parseInstanceMsg msg with
  | none => (false, p)
  | some ist =>
    match parsePayloadMsg ist.head with
    | none => (false, p)
    | some pm =>
      let p2 : PayloadState :=
        { p with iss := pm.iss, sub := pm.sub, pbi := pm.pbi,
                 custom := ainsertAll p.custom pm.custom,
                 aud := if pm.audVec.length > 0 then .list pm.audVec
                        else .scalar pm.aud,
                 exp := some (pm.exp.getD ⟨0, 0⟩),
                 nbf := some (pm.nbf.getD ⟨0, 0⟩),
                 iat := some (pm.iat.getD ⟨0, 0⟩) }
      if ist.custom = [] then (true, { p2 with blob := none })
      else match parseAny ist.custom with
        | none => (false, p2)
        | some a => (true, { p2 with blob := some a })

/-- `PWTPayloadBase::IsExpired` (src/utils/encrypt.h:853-859): false when
no expiration is set, otherwise `exp_.value() < GetTimestamp()`. -/
def isExpired (p : PayloadState) (now : Ts) : Bool :=
  match p.exp with
  | none => false
  | some e => tsLt e now

/-- `PWTPayload::InitConstructor` (src/utils/encrypt.h:524-548), used by
the convenience constructors taking issuer/subject/audience and the
exp/nbf/iat offsets: sets all three timestamps from the current time,
then clears all three when `exp < iat || nbf > exp`. -/
def initConstructor (iss sub : Str) (aud : Aud) (exp nbf iat : Nat)
    (blob : Option AnyMsg) (now : Ts) (pbi : Str) : PayloadState :=
  let p : PayloadState :=
    { iss := iss, sub := sub, pbi := pbi, aud := aud,
      nbf := some (getTimestamp now nbf),
      iat := some (getTimestamp now iat),
      exp := some (getTimestamp now exp),
      custom := [], blob := blob }
  if exp < iat || nbf > exp then
    { p with exp := none, nbf := none, iat := none }
  else p

/-! ## `PWTInstance` -/

/-- `PWTInstance` owns nullable pointers to header, payload and algorithm;
the in-class constructor fills all three, but a moved-from instance has
them null. -/
structure InstState where
  header : Option HeaderState
  payload : Option PayloadState
  crypto : Option AlgorithmState
  deriving DecidableEq, Repr

/-- `PWTInstance::Sign` (src/utils/encrypt.h:932-941): throws
`std::runtime_error` on an empty preimage, otherwise defers to
`Algorithm::Encrypt`. -/
def instSign (c : AlgorithmState) (s : Str) : Except Err Str :=
  if s = [] then .error .runtimeError else algEncrypt c s

/-- `PWTInstance::Encode` (src/utils/encrypt.h:986-1000): encode header
and payload, sign their raw concatenation, serialize the outer
`PWTMessage`.  There is no unset check: a null component is dereferenced,
modelled as `none` (the program crashes rather than throwing). -/
def instEncode (i : InstState) : Option (Except Err Str) :=
  match i.header with
  | none => none
  | some h =>
    match i.payload with
    | none => none
    | some p =>
      match i.crypto with
      | none => none
      | some c =>
        let hs := headerEncode h
        let ps := payloadEncode p
        match instSign c (hs ++ ps) with
        | .error e => some (.error e)
        | .ok sig =>
          some (.ok (serPWTMsg { header := hs, payload := ps, signature := sig }))

/-- `PWTInstance::Decode` (src/utils/encrypt.h:1009-1023): false on empty
or unparseable outer message; then checks the signature (exceptions from
`Sign` are caught as false) and, short-circuiting, decodes header then
payload in place.  A null component would be dereferenced (`none`). -/
def instDecode (i : InstState) (msg : Str) : Option (Bool × InstState) :=
  if msg = [] then some (false, i)
  else match parsePWTMsg msg with
  | none => some (false, i)
  | some m =>
    match i.crypto with
    | none => none
    | some c =>
      match instSign c (m.header ++ m.payload) with
      | .error _ => some (false, i)
      | .ok sig =>
        if m.signature = sig then
          match i.header with
          | none => none
          | some h =>
            match headerDecode h m.header with
            | (false, h2) => some (false, { i with header := some h2 })
            | (true, h2) =>
              match i.payload with
              | none => none
              | some p =>
                match payloadDecode p m.payload with
                | (b, p2) => some (b, { i with header := some h2, payload := some p2 })
        else some (false, i)

/-- `PWTInstance::IsTokenValid` (src/utils/encrypt.h:951-964): parses the
outer message and re-runs `Sign` on `header ++ payload`, comparing
byte-for-byte; exceptions are caught as false; fields are not touched. -/
def isTokenValid (i : InstState) (s : Str) : Option Bool :=
  if s = [] then some false
  else match parsePWTMsg s with
  | none => some false
  | some m =>
    match i.crypto with
    | none => none
    | some c =>
      match instSign c (m.header ++ m.payload) with
      | .error _ => some false
      | .ok sig => some (m.signature = sig)

/-- `PWTInstance::CopyAlgorithm` (src/utils/encrypt.h:1295-1303): replaces
only the algorithm with a clone of the other instance's algorithm
(`AlgorithmBase::Clone` deep-copies key/IV/salt). -/
def copyAlgorithm (i other : InstState) : InstState :=
  { i with crypto := other.crypto }

/-- `PWTInstance::SetType` (src/utils/encrypt.h:1082-1087): forwards to the
header only when the argument is at most 255 characters long, and returns
the instance.  (The header dereference is elided: the claim concerns the
constructed instance, whose header is present.) -/
def setType (i : InstState) (typ : Str) : InstState :=
  if typ.length ≤ 255 then
    { i with header := i.header.map (fun h => { h with typ := typ }) }
  else i

/-! ## `PWTPool`

Instances handed out by the pool are identified by numeric ids (standing
for the `shared_ptr` identities); the available/used
`atomic_unordered_map<ptr, bool>` key sets are modelled as lists with
map-insert (no duplicate) semantics.  Operations are modelled as atomic
steps of a sequential transition system. -/

/-- `atomic_unordered_map::insert` on an identity set. -/
def insertId (x : Nat) (l : List Nat) : List Nat :=
  if x ∈ l then l else l ++ [x]

/-- Pool state: capacity bound, instance count, the available and used
identity sets, and the next fresh identity. -/
structure PoolState where
  maxSize : Nat
  currentSize : Nat
  available : List Nat
  used : List Nat
  nextId : Nat
  deriving DecidableEq, Repr

/-- `PWTPool::PWTPool(max_size)` (src/utils/encrypt.h:1383-1391):
`current_size = max_size / 2` instances are created into the available
set. -/
def poolInit (maxSize : Nat) : PoolState :=
  { maxSize := maxSize, currentSize := maxSize / 2,
    available := List.range (maxSize / 2), used := [],
    nextId := maxSize / 2 }

/-- `PWTPool::Get` (src/utils/encrypt.h:1398-1426): if the available set
is empty and `fetch_add` saw `current_size < max_size`, a fresh clone of
the template is recorded in the used set and returned; if the pool was
full the increment is undone and the caller blocks on the condition
variable until an instance is available (`none`: the state is unchanged
and no instance is handed out); otherwise `pair_begin` removes one
available instance, which is recorded in the used set and returned. -/
def poolGet (s : PoolState) : Option Nat × PoolState :=
  match s.available with
  | [] =>
    if s.currentSize < s.maxSize then
      (some s.nextId,
       { s with currentSize := s.currentSize + 1,
                used := insertId s.nextId s.used,
                nextId := s.nextId + 1 })
    else (none, s)
  | a :: rest =>
    (some a, { s with available := rest, used := insertId a s.used })

/-- `PWTPool::Put` (src/utils/encrypt.h:1433-1452): a no-op unless the
instance is recorded in the used set; otherwise it moves used →
available and wakes one waiter. -/
def poolPut (s : PoolState) (id : Nat) : PoolState :=
  if id ∈ s.used then
    { s with used := s.used.erase id, available := insertId id s.available }
  else s

/-- An atomic pool operation. -/
inductive PoolOp where
  | get
  | put (id : Nat)
  deriving DecidableEq, Repr

/-- One pool step. -/
def poolStep (s : PoolState) : PoolOp → PoolState
  | .get => (poolGet s).2
  | .put id => poolPut s id

/-- The pool state after a sequence of Get/Put operations. -/
def poolRun (maxSize : Nat) (ops : List PoolOp) : PoolState :=
  ops.foldl poolStep (poolInit maxSize)

/-- The pool representation invariant of claim C2 plus the bookkeeping
(no duplicates, identities below `nextId`) needed to preserve it. -/
def PoolInv (s : PoolState) : Prop :=
  s.available.Nodup ∧ s.used.Nodup ∧
  (∀ x, x ∈ s.available → x ∉ s.used) ∧
  s.available.length + s.used.length = s.currentSize ∧
  s.currentSize ≤ s.maxSize ∧
  s.maxSize / 2 ≤ s.currentSize ∧
  (∀ x, x ∈ s.available → x < s.nextId) ∧
  (∀ x, x ∈ s.used → x < s.nextId)

/-! ## Codec lemmas: the serializer is a right inverse of the parser -/

theorem parseFieldsAux_fuel_invariant {M : Type}
    (upd : Nat → Str → M → Option M) :
    ∀ (f1 : Nat) (s : Str) (acc : M) (f2 : Nat),
      s.length ≤ f1 → s.length ≤ f2 →
      parseFieldsAux upd f1 s acc = parseFieldsAux upd f2 s acc := by
  intro f1
  induction f1 with
  | zero =>
    intro s acc f2 h1 _
    have hs : s = [] := List.length_eq_zero.mp (Nat.le_zero.mp h1)
    subst hs
    cases f2 <;> rfl
  | succ f ih =>
    intro s acc f2 h1 h2
    cases s with
    | nil => cases f2 <;> rfl
    | cons t s2 =>
      cases s2 with
      | nil => cases f2 <;> rfl
      | cons n rest =>
        cases f2 with
        | zero => simp at h2
        | succ f2p =>
          show (if n ≤ rest.length then _ else none)
            = (if n ≤ rest.length then _ else none)
          by_cases hn : n ≤ rest.length
          · rw [if_pos hn, if_pos hn]
            cases hupd : upd t (rest.take n) acc with
            | none => rfl
            | some acc2 =>
              refine ih (rest.drop n) acc2 f2p ?_ ?_ <;>
                (simp only [List.length_cons, List.length_drop] at h1 h2 ⊢; omega)
          · rw [if_neg hn, if_neg hn]

theorem parseFields_nil {M : Type} (upd : Nat → Str → M → Option M) (acc : M) :
    parseFields upd [] acc = some acc := rfl

theorem parseFields_eq_cons {M : Type} (upd : Nat → Str → M → Option M)
    (t n : Nat) (rest : Str) (acc : M) :
    parseFields upd (t :: n :: rest) acc =
      if n ≤ rest.length then
        match upd t (rest.take n) acc with
        | none => none
        | some acc2 => parseFields upd (rest.drop n) acc2
      else none := by
  show parseFieldsAux upd (rest.length + 1 + 1) (t :: n :: rest) acc = _
  show (if n ≤ rest.length then _ else none) = _
  by_cases hn : n ≤ rest.length
  · rw [if_pos hn, if_pos hn]
    cases hupd : upd t (rest.take n) acc with
    | none => rfl
    | some acc2 =>
      exact parseFieldsAux_fuel_invariant upd (rest.length + 1) (rest.drop n)
        acc2 (rest.drop n).length (by simp only [List.length_drop]; omega)
        (Nat.le_refl _)
  · rw [if_neg hn, if_neg hn]

theorem parseFields_fieldEnc {M : Type} (upd : Nat → Str → M → Option M)
    (t : Nat) (b rest : Str) (acc : M) :
    parseFields upd (fieldEnc t b ++ rest) acc =
      match upd t b acc with
      | none => none
      | some acc2 => parseFields upd rest acc2 := by
  show parseFields upd (t :: b.length :: (b ++ rest)) acc = _
  rw [parseFields_eq_cons]
  have h : b.length ≤ (b ++ rest).length := by simp
  rw [if_pos h, List.take_left, List.drop_left]

theorem parseFields_optField {M : Type} (upd : Nat → Str → M → Option M)
    (t : Nat) (b rest : Str) (acc acc2 : M)
    (hne : b ≠ [] → upd t b acc = some acc2) (hnil : b = [] → acc2 = acc) :
    parseFields upd (optField t b ++ rest) acc = parseFields upd rest acc2 := by
  by_cases hb : b = []
  · simp [optField, hb, hnil hb]
  · rw [optField, if_neg hb, parseFields_fieldEnc, hne hb]

theorem decInt_encInt (x : Int) : decInt (if x < 0 then 1 else 0) x.natAbs = x := by
  by_cases h : x < 0
  · rw [if_pos h]; unfold decInt; rw [if_neg (by decide)]; omega
  · rw [if_neg h]; unfold decInt; rw [if_pos rfl]; omega

theorem parseTs_serTs (t : Ts) : parseTs (serTs t) = some t := by
  obtain ⟨s, n⟩ := t
  simp only [serTs, encInt, parseTs, List.cons_append, List.nil_append,
    Option.some.injEq, Ts.mk.injEq]
  exact ⟨decInt_encInt s, decInt_encInt n⟩

theorem parseFields_optTsField {M : Type} (upd : Nat → Str → M → Option M)
    (t : Nat) (o : Option Ts) (rest : Str) (acc acc2 : M)
    (hsome : ∀ ts, o = some ts → upd t (serTs ts) acc = some acc2)
    (hnone : o = none → acc2 = acc) :
    parseFields upd (optTsField t o ++ rest) acc = parseFields upd rest acc2 := by
  cases o with
  | none => simp [optTsField, hnone rfl]
  | some ts => rw [optTsField, parseFields_fieldEnc, hsome ts rfl]

theorem parseKV_serKV (kv : Str × Str) : parseKV (serKV kv) = some kv := by
  obtain ⟨k, v⟩ := kv
  calc parseKV (serKV (k, v))
      = parseFields updKV (optField 1 k ++ (optField 2 v ++ [])) ([], []) := by
        simp [parseKV, serKV]
    _ = parseFields updKV (optField 2 v ++ []) (k, []) := by
        refine parseFields_optField _ _ _ _ _ _ (fun _ => rfl) (fun h => by rw [h])
    _ = parseFields updKV [] (k, v) := by
        refine parseFields_optField _ _ _ _ _ _ (fun _ => rfl) (fun h => by rw [h])
    _ = some (k, v) := parseFields_nil _ _

theorem parseAny_serAny (a : AnyMsg) : parseAny (serAny a) = some a := by
  obtain ⟨u, v⟩ := a
  calc parseAny (serAny ⟨u, v⟩)
      = parseFields updAny (optField 1 u ++ (optField 2 v ++ [])) ⟨[], []⟩ := by
        simp [parseAny, serAny]
    _ = parseFields updAny (optField 2 v ++ []) ⟨u, []⟩ := by
        refine parseFields_optField _ _ _ _ _ _ (fun _ => rfl) (fun h => by rw [h])
    _ = parseFields updAny [] ⟨u, v⟩ := by
        refine parseFields_optField _ _ _ _ _ _ (fun _ => rfl) (fun h => by rw [h])
    _ = some ⟨u, v⟩ := parseFields_nil _ _

theorem parseFields_headerCustom (l : List (Str × Str)) (acc : HeaderMessage) :
    parseFields updHeader ((l.map (fun kv => fieldEnc 5 (serKV kv))).flatten) acc =
      some { acc with custom := acc.custom ++ l } := by
  induction l generalizing acc with
  | nil => simp [parseFields_nil]
  | cons kv tl ih =>
    simp only [List.map_cons, List.flatten_cons, List.append_assoc]
    rw [parseFields_fieldEnc]
    rw [show updHeader 5 (serKV kv) acc
        = some { acc with custom := acc.custom ++ [kv] } from by
      simp [updHeader, parseKV_serKV]]
    show parseFields updHeader ((tl.map (fun kv => fieldEnc 5 (serKV kv))).flatten)
        { acc with custom := acc.custom ++ [kv] } = _
    rw [ih]
    simp

theorem parseHeaderMsg_serHeaderMsg (m : HeaderMessage) :
    parseHeaderMsg (serHeaderMsg m) = some m := by
  obtain ⟨t, k, p, x, c⟩ := m
  unfold parseHeaderMsg serHeaderMsg
  dsimp only
  simp only [List.append_assoc]
  rw [parseFields_optField updHeader 1 t _ ⟨[], [], [], [], []⟩ ⟨t, [], [], [], []⟩
    (fun _ => rfl) (fun h => by rw [h])]
  rw [parseFields_optField updHeader 2 k _ ⟨t, [], [], [], []⟩ ⟨t, k, [], [], []⟩
    (fun _ => rfl) (fun h => by rw [h])]
  rw [parseFields_optField updHeader 3 p _ ⟨t, k, [], [], []⟩ ⟨t, k, p, [], []⟩
    (fun _ => rfl) (fun h => by rw [h])]
  rw [parseFields_optField updHeader 4 x _ ⟨t, k, p, [], []⟩ ⟨t, k, p, x, []⟩
    (fun _ => rfl) (fun h => by rw [h])]
  rw [parseFields_headerCustom]
  simp

theorem parseFields_payloadCustom (l : List (Str × Str)) (acc : PayloadMessage) :
    parseFields updPayload ((l.map (fun kv => fieldEnc 9 (serKV kv))).flatten) acc =
      some { acc with custom := acc.custom ++ l } := by
  induction l generalizing acc with
  | nil => simp [parseFields_nil]
  | cons kv tl ih =>
    simp only [List.map_cons, List.flatten_cons, List.append_assoc]
    rw [parseFields_fieldEnc]
    rw [show updPayload 9 (serKV kv) acc
        = some { acc with custom := acc.custom ++ [kv] } from by
      simp [updPayload, parseKV_serKV]]
    show parseFields updPayload ((tl.map (fun kv => fieldEnc 9 (serKV kv))).flatten)
        { acc with custom := acc.custom ++ [kv] } = _
    rw [ih]
    simp

theorem parseFields_audVec (l : List Str) (rest : Str) (acc : PayloadMessage) :
    parseFields updPayload ((l.map (fun a => fieldEnc 5 a)).flatten ++ rest) acc =
      parseFields updPayload rest { acc with audVec := acc.audVec ++ l } := by
  induction l generalizing acc with
  | nil => simp
  | cons a tl ih =>
    simp only [List.map_cons, List.flatten_cons, List.append_assoc]
    rw [parseFields_fieldEnc]
    show parseFields updPayload _ { acc with audVec := acc.audVec ++ [a] } = _
    rw [ih]
    simp

theorem parsePayloadMsg_serPayloadMsg (m : PayloadMessage) :
    parsePayloadMsg (serPayloadMsg m) = some m := by
  obtain ⟨i, s, pb, a, av, e, nb, ia, c⟩ := m
  unfold parsePayloadMsg serPayloadMsg
  dsimp only
  simp only [List.append_assoc]
  rw [parseFields_optField updPayload 1 i _ ⟨[], [], [], [], [], none, none, none, []⟩
    ⟨i, [], [], [], [], none, none, none, []⟩ (fun _ => rfl) (fun h => by rw [h])]
  rw [parseFields_optField updPayload 2 s _ ⟨i, [], [], [], [], none, none, none, []⟩
    ⟨i, s, [], [], [], none, none, none, []⟩ (fun _ => rfl) (fun h => by rw [h])]
  rw [parseFields_optField updPayload 3 pb _ ⟨i, s, [], [], [], none, none, none, []⟩
    ⟨i, s, pb, [], [], none, none, none, []⟩ (fun _ => rfl) (fun h => by rw [h])]
  rw [parseFields_optField updPayload 4 a _ ⟨i, s, pb, [], [], none, none, none, []⟩
    ⟨i, s, pb, a, [], none, none, none, []⟩ (fun _ => rfl) (fun h => by rw [h])]
  rw [parseFields_audVec av _ ⟨i, s, pb, a, [], none, none, none, []⟩]
  show parseFields updPayload _ ⟨i, s, pb, a, av, none, none, none, []⟩ = _
  rw [parseFields_optTsField updPayload 6 e _ ⟨i, s, pb, a, av, none, none, none, []⟩
    ⟨i, s, pb, a, av, e, none, none, []⟩
    (fun ts hts => by rw [hts]; simp [updPayload, parseTs_serTs])
    (fun h => by rw [h])]
  rw [parseFields_optTsField updPayload 7 nb _ ⟨i, s, pb, a, av, e, none, none, []⟩
    ⟨i, s, pb, a, av, e, nb, none, []⟩
    (fun ts hts => by rw [hts]; simp [updPayload, parseTs_serTs])
    (fun h => by rw [h])]
  rw [parseFields_optTsField updPayload 8 ia _ ⟨i, s, pb, a, av, e, nb, none, []⟩
    ⟨i, s, pb, a, av, e, nb, ia, []⟩
    (fun ts hts => by rw [hts]; simp [updPayload, parseTs_serTs])
    (fun h => by rw [h])]
  rw [parseFields_payloadCustom]
  simp

theorem parseInstanceMsg_serInstanceMsg (m : InstanceMessage) :
    parseInstanceMsg (serInstanceMsg m) = some m := by
  obtain ⟨h, c⟩ := m
  calc parseInstanceMsg (serInstanceMsg ⟨h, c⟩)
      = parseFields updInstance (optField 1 h ++ (optField 2 c ++ [])) ⟨[], []⟩ := by
        simp [parseInstanceMsg, serInstanceMsg]
    _ = parseFields updInstance (optField 2 c ++ []) ⟨h, []⟩ := by
        refine parseFields_optField _ _ _ _ _ _ (fun _ => rfl) (fun hh => by rw [hh])
    _ = parseFields updInstance [] ⟨h, c⟩ := by
        refine parseFields_optField _ _ _ _ _ _ (fun _ => rfl) (fun hh => by rw [hh])
    _ = some ⟨h, c⟩ := parseFields_nil _ _

theorem parsePWTMsg_serPWTMsg (m : PWTMessage) :
    parsePWTMsg (serPWTMsg m) = some m := by
  obtain ⟨h, p, s⟩ := m
  calc parsePWTMsg (serPWTMsg ⟨h, p, s⟩)
      = parseFields updPWT (optField 1 h ++ (optField 2 p ++ (optField 3 s ++ [])))
          ⟨[], [], []⟩ := by
        simp [parsePWTMsg, serPWTMsg]
    _ = parseFields updPWT (optField 2 p ++ (optField 3 s ++ [])) ⟨h, [], []⟩ := by
        refine parseFields_optField _ _ _ _ _ _ (fun _ => rfl) (fun hh => by rw [hh])
    _ = parseFields updPWT (optField 3 s ++ []) ⟨h, p, []⟩ := by
        refine parseFields_optField _ _ _ _ _ _ (fun _ => rfl) (fun hh => by rw [hh])
    _ = parseFields updPWT [] ⟨h, p, s⟩ := by
        refine parseFields_optField _ _ _ _ _ _ (fun _ => rfl) (fun hh => by rw [hh])
    _ = some ⟨h, p, s⟩ := parseFields_nil _ _

/-! ## Map lemmas -/

theorem alookup_append {K V : Type} [DecidableEq K] (k : K) (m1 m2 : AMap K V) :
    alookup k (m1 ++ m2) =
      match alookup k m1 with
      | some v => some v
      | none => alookup k m2 := by
  induction m1 with
  | nil => simp [alookup]
  | cons kv tl ih =>
    obtain ⟨k2, v⟩ := kv
    by_cases h : k2 = k <;> simp [alookup, h, ih]

theorem ainsertAll_disjoint {K V : Type} [DecidableEq K] (m : AMap K V)
    (l : List (K × V)) (hd : ∀ kv ∈ l, acontains kv.1 m = false)
    (hl : (l.map Prod.fst).Nodup) :
    ainsertAll m l = m ++ l := by
  induction l generalizing m with
  | nil => simp [ainsertAll]
  | cons kv tl ih =>
    have hcon : acontains kv.1 m = false := hd kv (by simp)
    have hstep : ainsertAll m (kv :: tl) = ainsertAll (m ++ [kv]) tl := by
      simp [ainsertAll, ainsert, hcon]
    rw [hstep]
    have hknotin : kv.1 ∉ tl.map Prod.fst := (List.nodup_cons.mp hl).1
    have htl : ∀ kv2 ∈ tl, acontains kv2.1 (m ++ [kv]) = false := by
      intro kv2 h2
      have hne : kv.1 ≠ kv2.1 := by
        intro he
        exact hknotin (he ▸ List.mem_map_of_mem Prod.fst h2)
      have hm : acontains kv2.1 m = false := hd kv2 (List.mem_cons_of_mem _ h2)
      simp only [acontains, alookup_append] at *
      cases hlk : alookup kv2.1 m with
      | some v => rw [hlk] at hm; simp at hm
      | none => simp [hlk, alookup, hne]
    rw [ih (m ++ [kv]) htl (List.nodup_cons.mp hl).2]
    simp

theorem ainsertAll_nil {K V : Type} [DecidableEq K] (l : List (K × V))
    (hl : (l.map Prod.fst).Nodup) :
    ainsertAll ([] : AMap K V) l = l := by
  rw [ainsertAll_disjoint [] l (fun kv _ => rfl) hl]
  simp

theorem customSection_keys (m : AMap Str Str) :
    (customSection m).map Prod.fst = akeys m := by
  unfold customSection
  rw [List.map_map]
  show (akeys m).map (fun k => k) = akeys m
  simp

theorem customSection_eq (m : AMap Str Str) (h : anodup m) :
    customSection m = m := by
  induction m with
  | nil => rfl
  | cons kv tl ih =>
    obtain ⟨k, v⟩ := kv
    obtain ⟨hknotin, htl⟩ := List.nodup_cons.mp h
    have hhead : alookup k (((k, v) :: tl) : AMap Str Str) = some v := by
      simp [alookup]
    have htail : ∀ k2 ∈ akeys tl,
        alookup k2 (((k, v) :: tl) : AMap Str Str) = alookup k2 tl := by
      intro k2 h2
      have : k ≠ k2 := fun he => hknotin (he ▸ h2)
      simp [alookup, this]
    calc customSection ((k, v) :: tl)
        = (k, v) :: (akeys tl).map (fun k2 => (k2, (alookup k2 (((k, v) :: tl) : AMap Str Str)).getD [])) := by
          simp [customSection, akeys, hhead]
      _ = (k, v) :: (akeys tl).map (fun k2 => (k2, (alookup k2 tl).getD [])) := by
          congr 1
          exact List.map_congr_left (fun k2 h2 => by rw [htail k2 h2])
      _ = (k, v) :: tl := by rw [show ((akeys tl).map (fun k2 => (k2, (alookup k2 tl).getD [])) : List (Str × Str)) = customSection tl from rfl, ih htl]

/-! ## Header and payload round-trip lemmas -/

theorem headerDecode_headerEncode (e d : HeaderState)
    (hnd : anodup e.custom) (hdc : d.custom = [])
    (hne : serHeaderMsg ⟨e.typ, e.kid, e.pwk, e.x5u, customSection e.custom⟩ ≠ [])
    (hblob : ∀ a, e.blob = some a → serAny a ≠ []) :
    headerDecode d (headerEncode e) =
      (true, ⟨e.typ, e.kid, e.pwk, e.x5u, e.custom, e.blob⟩) := by
  have hmsgne : headerEncode e ≠ [] := by
    simp only [headerEncode, serInstanceMsg]
    rw [optField, if_neg hne]
    simp [fieldEnc]
  have hcustom : ainsertAll d.custom (customSection e.custom) = e.custom := by
    rw [hdc, ainsertAll_nil _ (by rw [customSection_keys]; exact hnd),
      customSection_eq _ hnd]
  unfold headerDecode
  rw [if_neg hmsgne]
  unfold headerEncode
  rw [parseInstanceMsg_serInstanceMsg]
  show (match parseHeaderMsg (serHeaderMsg ⟨e.typ, e.kid, e.pwk, e.x5u, customSection e.custom⟩) with
    | none => _
    | some hm => _) = _
  rw [parseHeaderMsg_serHeaderMsg]
  cases hb : e.blob with
  | none =>
    show (if ([] : Str) = [] then _ else _) = _
    rw [if_pos rfl]
    simp [hcustom]
  | some a =>
    have hbne : serAny a ≠ [] := hblob a hb
    show (if serAny a = [] then _ else _) = _
    rw [if_neg hbne]
    dsimp only [blobBytes]
    rw [parseAny_serAny]
    simp [hcustom]

theorem serPayloadMsg_ne_nil (pm : PayloadMessage) (te : Ts)
    (h : pm.exp = some te) : serPayloadMsg pm ≠ [] := by
  intro hc
  simp [serPayloadMsg, h, optTsField, fieldEnc] at hc

theorem payloadDecode_encode_aux (d : PayloadState) (pm : PayloadMessage)
    (blob : Option AnyMsg) (hne : serPayloadMsg pm ≠ [])
    (hblob : ∀ a, blob = some a → serAny a ≠ []) :
    payloadDecode d (serInstanceMsg ⟨serPayloadMsg pm, blobBytes blob⟩) =
      (true,
        { d with iss := pm.iss, sub := pm.sub, pbi := pm.pbi,
                 custom := ainsertAll d.custom pm.custom,
                 aud := if pm.audVec.length > 0 then .list pm.audVec
                        else .scalar pm.aud,
                 exp := some (pm.exp.getD ⟨0, 0⟩),
                 nbf := some (pm.nbf.getD ⟨0, 0⟩),
                 iat := some (pm.iat.getD ⟨0, 0⟩),
                 blob := blob }) := by
  have hmsgne : serInstanceMsg ⟨serPayloadMsg pm, blobBytes blob⟩ ≠ [] := by
    simp only [serInstanceMsg]
    rw [optField, if_neg hne]
    simp [fieldEnc]
  unfold payloadDecode
  rw [if_neg hmsgne, parseInstanceMsg_serInstanceMsg]
  show (match parsePayloadMsg (serPayloadMsg pm) with
    | none => _
    | some pmx => _) = _
  rw [parsePayloadMsg_serPayloadMsg]
  cases hb : blob with
  | none =>
    show (if ([] : Str) = [] then _ else _) = _
    rw [if_pos rfl]
  | some a =>
    have hbne : serAny a ≠ [] := hblob a hb
    show (if serAny a = [] then _ else _) = _
    rw [if_neg hbne]
    dsimp only [blobBytes]
    rw [parseAny_serAny]

theorem payloadDecode_payloadEncode (e d : PayloadState)
    (hnd : anodup e.custom) (hdc : d.custom = [])
    (te tn ti : Ts) (hte : e.exp = some te) (htn : e.nbf = some tn)
    (hti : e.iat = some ti) (haud : e.aud ≠ Aud.list [])
    (hblob : ∀ a, e.blob = some a → serAny a ≠ []) :
    payloadDecode d (payloadEncode e) =
      (true, ⟨e.iss, e.sub, e.pbi, e.aud, e.exp, e.nbf, e.iat, e.custom, e.blob⟩) := by
  have hne : serPayloadMsg
      ⟨e.iss, e.sub, e.pbi,
        (match e.aud with | .scalar s => s | .list _ => []),
        (match e.aud with | .scalar _ => [] | .list l => l),
        e.exp, e.nbf, e.iat, customSection e.custom⟩ ≠ [] :=
    serPayloadMsg_ne_nil _ te hte
  have hcustom : ainsertAll d.custom (customSection e.custom) = e.custom := by
    rw [hdc, ainsertAll_nil _ (by rw [customSection_keys]; exact hnd),
      customSection_eq _ hnd]
  have h := payloadDecode_encode_aux d
    ⟨e.iss, e.sub, e.pbi,
      (match e.aud with | .scalar s => s | .list _ => []),
      (match e.aud with | .scalar _ => [] | .list l => l),
      e.exp, e.nbf, e.iat, customSection e.custom⟩ e.blob hne hblob
  rw [show payloadEncode e = serInstanceMsg
      ⟨serPayloadMsg
        ⟨e.iss, e.sub, e.pbi,
          (match e.aud with | .scalar s => s | .list _ => []),
          (match e.aud with | .scalar _ => [] | .list l => l),
          e.exp, e.nbf, e.iat, customSection e.custom⟩,
        blobBytes e.blob⟩ from rfl]
  rw [h]
  dsimp only
  rw [hcustom, hte, htn, hti]
  cases hau : e.aud with
  | scalar s => simp
  | list l =>
    have hl : l ≠ [] := by
      intro hc
      exact haud (by rw [hau, hc])
    simp [List.length_pos.mpr hl]

/-! ## Pool lemmas -/

theorem mem_insertId (x y : Nat) (l : List Nat) :
    y ∈ insertId x l ↔ y ∈ l ∨ y = x := by
  unfold insertId
  split_ifs with h
  · constructor
    · exact fun hy => Or.inl hy
    · rintro (hy | rfl)
      · exact hy
      · exact h
  · simp [List.mem_append]

theorem insertId_nodup (x : Nat) (l : List Nat) (h : l.Nodup) :
    (insertId x l).Nodup := by
  unfold insertId
  split_ifs with hx
  · exact h
  · simp [List.nodup_append, h, hx]

theorem insertId_length (x : Nat) (l : List Nat) (h : x ∉ l) :
    (insertId x l).length = l.length + 1 := by
  unfold insertId
  rw [if_neg h]
  simp

theorem poolInit_inv (M : Nat) : PoolInv (poolInit M) := by
  refine ⟨?_, ?_, ?_, ?_, ?_, ?_, ?_, ?_⟩ <;>
    simp [poolInit, Nat.div_le_self, List.nodup_range]

theorem poolGet_inv (s : PoolState) (h : PoolInv s) : PoolInv (poolGet s).2 := by
  obtain ⟨hna, hnu, hdisj, hlen, hmax, hmin, hba, hbu⟩ := h
  unfold poolGet
  cases hav : s.available with
  | nil =>
    by_cases hc : s.currentSize < s.maxSize
    · rw [if_pos hc]
      have hfresh : s.nextId ∉ s.used := fun hm => Nat.lt_irrefl _ (hbu _ hm)
      have hlen2 : s.used.length = s.currentSize := by
        rw [hav] at hlen
        simpa using hlen
      refine ⟨?_, ?_, ?_, ?_, ?_, ?_, ?_, ?_⟩ <;> dsimp only
      · exact List.nodup_nil
      · exact insertId_nodup _ _ hnu
      · intro x hx
        exact absurd hx (List.not_mem_nil x)
      · rw [insertId_length _ _ hfresh]
        simp [hlen2]
      · omega
      · omega
      · intro x hx
        exact absurd hx (List.not_mem_nil x)
      · intro x hx
        rcases (mem_insertId _ _ _).mp hx with hx2 | rfl
        · exact Nat.lt_succ_of_lt (hbu x hx2)
        · exact Nat.lt_succ_self _
    · rw [if_neg hc]
      exact ⟨hna, hnu, hdisj, hlen, hmax, hmin, hba, hbu⟩
  | cons a rest =>
    have hamem : a ∈ s.available := by
      rw [hav]
      exact List.mem_cons_self a rest
    have hanotu : a ∉ s.used := hdisj a hamem
    have hnodup2 : (a :: rest).Nodup := hav ▸ hna
    refine ⟨?_, ?_, ?_, ?_, ?_, ?_, ?_, ?_⟩ <;> dsimp only
    · exact (List.nodup_cons.mp hnodup2).2
    · exact insertId_nodup _ _ hnu
    · intro x hx hxu
      rcases (mem_insertId _ _ _).mp hxu with hx2 | rfl
      · exact hdisj x (by rw [hav]; exact List.mem_cons_of_mem a hx) hx2
      · exact (List.nodup_cons.mp hnodup2).1 hx
    · rw [hav] at hlen
      simp only [List.length_cons] at hlen
      rw [insertId_length _ _ hanotu]
      omega
    · exact hmax
    · exact hmin
    · intro x hx
      exact hba x (by rw [hav]; exact List.mem_cons_of_mem a hx)
    · intro x hx
      rcases (mem_insertId _ _ _).mp hx with hx2 | rfl
      · exact hbu x hx2
      · exact hba x hamem

theorem poolPut_inv (s : PoolState) (j : Nat) (h : PoolInv s) :
    PoolInv (poolPut s j) := by
  obtain ⟨hna, hnu, hdisj, hlen, hmax, hmin, hba, hbu⟩ := h
  unfold poolPut
  by_cases hj : j ∈ s.used
  · rw [if_pos hj]
    have hjna : j ∉ s.available := fun hm => hdisj j hm hj
    refine ⟨?_, ?_, ?_, ?_, ?_, ?_, ?_, ?_⟩ <;> dsimp only
    · exact insertId_nodup _ _ hna
    · exact hnu.erase j
    · intro x hx hxu
      rcases (mem_insertId _ _ _).mp hx with hx2 | rfl
      · exact hdisj x hx2 (List.mem_of_mem_erase hxu)
      · have : x ≠ x ∧ x ∈ s.used := (hnu.mem_erase_iff).mp hxu
        exact this.1 rfl
    · rw [insertId_length _ _ hjna, List.length_erase_of_mem hj]
      have hpos : 0 < s.used.length := List.length_pos_of_mem hj
      omega
    · exact hmax
    · exact hmin
    · intro x hx
      rcases (mem_insertId _ _ _).mp hx with hx2 | rfl
      · exact hba x hx2
      · exact hbu x hj
    · intro x hx
      exact hbu x (List.mem_of_mem_erase hx)
  · rw [if_neg hj]
    exact ⟨hna, hnu, hdisj, hlen, hmax, hmin, hba, hbu⟩

theorem poolStep_inv (s : PoolState) (op : PoolOp) (h : PoolInv s) :
    PoolInv (poolStep s op) := by
  cases op with
  | get => exact poolGet_inv s h
  | put id => exact poolPut_inv s id h

theorem poolFoldl_inv (ops : List PoolOp) (s : PoolState) (h : PoolInv s) :
    PoolInv (ops.foldl poolStep s) := by
  induction ops generalizing s with
  | nil => exact h
  | cons op tl ih => exact ih _ (poolStep_inv s op h)

theorem poolRun_inv (M : Nat) (ops : List PoolOp) : PoolInv (poolRun M ops) :=
  poolFoldl_inv ops (poolInit M) (poolInit_inv M)

theorem poolStep_currentSize_mono (s : PoolState) (op : PoolOp) :
    s.currentSize ≤ (poolStep s op).currentSize := by
  cases op with
  | get =>
    show s.currentSize ≤ (poolGet s).2.currentSize
    unfold poolGet
    cases s.available with
    | nil =>
      by_cases hc : s.currentSize < s.maxSize
      · rw [if_pos hc]; exact Nat.le_succ _
      · rw [if_neg hc]
    | cons a rest => exact Nat.le_refl _
  | put id =>
    show s.currentSize ≤ (poolPut s id).currentSize
    unfold poolPut
    by_cases hid : id ∈ s.used
    · rw [if_pos hid]
    · rw [if_neg hid]

theorem poolStep_maxSize (s : PoolState) (op : PoolOp) :
    (poolStep s op).maxSize = s.maxSize := by
  cases op with
  | get =>
    show (poolGet s).2.maxSize = s.maxSize
    unfold poolGet
    cases s.available with
    | nil =>
      by_cases hc : s.currentSize < s.maxSize
      · rw [if_pos hc]
      · rw [if_neg hc]
    | cons a rest => rfl
  | put j =>
    show (poolPut s j).maxSize = s.maxSize
    unfold poolPut
    by_cases hj : j ∈ s.used
    · rw [if_pos hj]
    · rw [if_neg hj]

theorem poolRun_maxSize (M : Nat) (ops : List PoolOp) :
    (poolRun M ops).maxSize = M := by
  suffices h : ∀ (l : List PoolOp) (s : PoolState),
      (l.foldl poolStep s).maxSize = s.maxSize by
    exact h ops (poolInit M)
  intro l
  induction l with
  | nil => intro s; rfl
  | cons op tl ih =>
    intro s
    rw [List.foldl_cons, ih, poolStep_maxSize]

/-! ## Claim theorems -/

/-- C2: for a pool constructed with `max_size = M`, after the constructor
and after every sequence of Get and Put operations the available and used
sets are disjoint and `available + used = current_size ≤ max_size = M`;
`current_size` starts at `M / 2` and never decreases across a further
operation. -/
theorem pool_partition_invariant (M : Nat) (ops : List PoolOp) :
    (∀ x, x ∈ (poolRun M ops).available → x ∉ (poolRun M ops).used) ∧
    (poolRun M ops).available.length + (poolRun M ops).used.length
      = (poolRun M ops).currentSize ∧
    (poolRun M ops).currentSize ≤ M ∧
    (poolRun M ops).maxSize = M ∧
    (poolRun M []).currentSize = M / 2 ∧
    M / 2 ≤ (poolRun M ops).currentSize ∧
    ∀ op, (poolRun M ops).currentSize ≤ (poolRun M (ops ++ [op])).currentSize := by
  obtain ⟨hna, hnu, hdisj, hlen, hmax, hmin, hba, hbu⟩ := poolRun_inv M ops
  refine ⟨hdisj, hlen, ?_, poolRun_maxSize M ops, rfl, ?_, ?_⟩
  · rw [poolRun_maxSize M ops] at hmax
    exact hmax
  · rw [poolRun_maxSize M ops] at hmin
    exact hmin
  · intro op
    show (poolRun M ops).currentSize
      ≤ ((ops ++ [op]).foldl poolStep (poolInit M)).currentSize
    rw [List.foldl_append]
    exact poolStep_currentSize_mono _ op

/-- C4: `PWTInstance::Encode` performs no unset check on its components:
with a null header, payload or algorithm it dereferences the null pointer
(modelled `none`: the program crashes) instead of failing with an
InvalidArgument error, contrary to the spec's error table and to the
earlier revision of the class (src/utils/pwt/pwt.h:471-478), whose test
expects `std::invalid_argument` here. -/
theorem instEncode_unset_no_invalid_argument :
    (∀ (p : Option PayloadState) (c : Option AlgorithmState),
      instEncode ⟨none, p, c⟩ = none) ∧
    (∀ (h : HeaderState) (c : Option AlgorithmState),
      instEncode ⟨some h, none, c⟩ = none) ∧
    (∀ (h : HeaderState) (p : PayloadState),
      instEncode ⟨some h, some p, none⟩ = none) :=
  ⟨fun _ _ => rfl, fun _ _ => rfl, fun _ _ => rfl⟩

/-- C5: `atomic_unordered_map::operator[]` returns the stored value and
leaves the map unchanged when the key is present, but on an absent key it
inserts a default-constructed value (the entry count grows by one) even
though it holds only a shared lock — the lookup is not mutation-free. -/
theorem aindex_mutates_on_absent_key (m : AMap Str Str) (k : Str) :
    (∀ v, alookup k m = some v → aindex [] m k = (v, m)) ∧
    (alookup k m = none →
      (aindex [] m k).2 = m ++ [(k, [])] ∧
      (aindex [] m k).2.length = m.length + 1 ∧
      (aindex [] m k).1 = []) := by
  constructor
  · intro v hv
    unfold aindex
    rw [hv]
  · intro hv
    unfold aindex
    rw [hv]
    exact ⟨rfl, by simp, rfl⟩

theorem aindex_mutates_on_absent_key_witness :
    aindex ([] : Str) ([([107], [5])] : AMap Str Str) [107] = ([5], [([107], [5])]) ∧
    (aindex ([] : Str) ([] : AMap Str Str) [107]).2.length
      = ([] : AMap Str Str).length + 1 :=
  ⟨(aindex_mutates_on_absent_key [([107], [5])] [107]).1 [5] (by decide),
   ((aindex_mutates_on_absent_key [] [107]).2 rfl).2.1⟩

/-- C8: `IsExpired` is false when no expiration is set and, when one is
set, is true exactly when the expiration instant is strictly before the
current time. -/
theorem isExpired_iff_strictly_before (p : PayloadState) (now : Ts) :
    isExpired p now = true ↔ ∃ e, p.exp = some e ∧ tsLt e now = true := by
  unfold isExpired
  cases hp : p.exp with
  | none => simp
  | some e => simp

/-- C9: the convenience payload constructor clears all three of exp, nbf
and iat exactly when `exp < iat` or `nbf > exp`, and sets all three
otherwise. -/
theorem initConstructor_timestamp_sanity (iss sub : Str) (aud : Aud)
    (exp nbf iat : Nat) (blob : Option AnyMsg) (now : Ts) (pbi : Str) :
    ((initConstructor iss sub aud exp nbf iat blob now pbi).exp = none ∧
     (initConstructor iss sub aud exp nbf iat blob now pbi).nbf = none ∧
     (initConstructor iss sub aud exp nbf iat blob now pbi).iat = none
       ↔ (exp < iat ∨ nbf > exp)) ∧
    ((initConstructor iss sub aud exp nbf iat blob now pbi).exp.isSome ∧
     (initConstructor iss sub aud exp nbf iat blob now pbi).nbf.isSome ∧
     (initConstructor iss sub aud exp nbf iat blob now pbi).iat.isSome
       ↔ ¬(exp < iat ∨ nbf > exp)) := by
  unfold initConstructor
  by_cases h : exp < iat ∨ nbf > exp
  · rw [if_pos (by simpa using h)]
    simp [h]
  · rw [if_neg (by simpa using h)]
    simp [h]

/-- C10: `SetType` stores the new type on the header exactly when its
length is at most 255, leaves the header's type unchanged otherwise, and
never touches the payload or the algorithm. -/
theorem setType_length_guard (i : InstState) (typ : Str) :
    (setType i typ).header
      = i.header.map (fun h => { h with
          typ := if typ.length ≤ 255 then typ else h.typ }) ∧
    (setType i typ).payload = i.payload ∧
    (setType i typ).crypto = i.crypto := by
  unfold setType
  by_cases h : typ.length ≤ 255
  · rw [if_pos h]
    refine ⟨?_, rfl, rfl⟩
    simp [h]
  · rw [if_neg h]
    refine ⟨?_, rfl, rfl⟩
    simp only [if_neg h]
    cases i.header <;> rfl

theorem pool_partition_invariant_witness :
    (poolRun 4 [PoolOp.get, PoolOp.put 0]).available.length
        + (poolRun 4 [PoolOp.get, PoolOp.put 0]).used.length
      = (poolRun 4 [PoolOp.get, PoolOp.put 0]).currentSize ∧
    4 / 2 ≤ (poolRun 4 [PoolOp.get, PoolOp.put 0]).currentSize :=
  ⟨(pool_partition_invariant 4 [PoolOp.get, PoolOp.put 0]).2.1,
   (pool_partition_invariant 4 [PoolOp.get, PoolOp.put 0]).2.2.2.2.2.1⟩

theorem isExpired_iff_strictly_before_witness :
    isExpired ⟨[], [], [], .scalar [], some ⟨10, 0⟩, none, none, [], none⟩ ⟨11, 0⟩ = true
      ↔ ∃ e, (⟨[], [], [], .scalar [], some ⟨10, 0⟩, none, none, [], none⟩
          : PayloadState).exp = some e ∧ tsLt e ⟨11, 0⟩ = true :=
  isExpired_iff_strictly_before ⟨[], [], [], .scalar [], some ⟨10, 0⟩, none, none, [], none⟩ ⟨11, 0⟩

theorem initConstructor_timestamp_sanity_witness :
    ((initConstructor [] [] (.scalar []) 10 0 0 none ⟨0, 0⟩ []).exp = none ∧
     (initConstructor [] [] (.scalar []) 10 0 0 none ⟨0, 0⟩ []).nbf = none ∧
     (initConstructor [] [] (.scalar []) 10 0 0 none ⟨0, 0⟩ []).iat = none
       ↔ (10 < 0 ∨ 0 > 10)) ∧
    ((initConstructor [] [] (.scalar []) 10 0 0 none ⟨0, 0⟩ []).exp.isSome ∧
     (initConstructor [] [] (.scalar []) 10 0 0 none ⟨0, 0⟩ []).nbf.isSome ∧
     (initConstructor [] [] (.scalar []) 10 0 0 none ⟨0, 0⟩ []).iat.isSome
       ↔ ¬(10 < 0 ∨ 0 > 10)) :=
  initConstructor_timestamp_sanity [] [] (.scalar []) 10 0 0 none ⟨0, 0⟩ []

/-- C6: the signing transform output depends only on the key material and
the input bytes - two instances holding equal keys produce byte-for-byte
identical signatures - and token validation accepts a string exactly when
it parses and its embedded signature equals the one re-computed by running
the same transform with the instance's own key over `header ++ payload`. -/
theorem sign_key_determined_and_verify (a b : AlgorithmState) (d : Str)
    (hk : a.key = b.key) (i : InstState) (c : AlgorithmState) (s : Str)
    (m : PWTMessage) (hc : i.crypto = some c) (hm : parsePWTMsg s = some m)
    (hs : s ≠ []) :
    algEncrypt a d = algEncrypt b d ∧
    (isTokenValid i s = some true ↔
      instSign c (m.header ++ m.payload) = .ok m.signature) := by
  constructor
  · unfold algEncrypt evpAes256Cbc
    rw [hk]
  · unfold isTokenValid
    rw [if_neg hs, hm, hc]
    dsimp only
    cases hsig : instSign c (m.header ++ m.payload) with
    | error e => simp [hsig]
    | ok sig =>
      simp [eq_comm]

theorem sign_key_determined_and_verify_witness :
    algEncrypt ⟨[1], [2], [3]⟩ [7] = algEncrypt ⟨[1], [5], [6]⟩ [7] ∧
    (isTokenValid ⟨none, none, some ⟨[9], [], []⟩⟩
          (serPWTMsg ⟨[1], [2], [3]⟩) = some true ↔
      instSign ⟨[9], [], []⟩
          ((⟨[1], [2], [3]⟩ : PWTMessage).header
            ++ (⟨[1], [2], [3]⟩ : PWTMessage).payload)
        = .ok (⟨[1], [2], [3]⟩ : PWTMessage).signature) :=
  sign_key_determined_and_verify ⟨[1], [2], [3]⟩ ⟨[1], [5], [6]⟩ [7] rfl
    ⟨none, none, some ⟨[9], [], []⟩⟩ ⟨[9], [], []⟩ (serPWTMsg ⟨[1], [2], [3]⟩)
    ⟨[1], [2], [3]⟩ rfl (by decide) (by decide)

/-- Characterization of a successful `PWTHeaderBase::Decode` on arbitrary
input: the scalar fields are replaced by the message's and the message
custom pairs are folded into the receiver's map with `insert`. -/
theorem headerDecode_success (h : HeaderState) (msg : Str) (h2 : HeaderState)
    (hdec : headerDecode h msg = (true, h2)) :
    ∃ ist hm, parseInstanceMsg msg = some ist ∧
      parseHeaderMsg ist.head = some hm ∧
      h2.typ = hm.typ ∧ h2.kid = hm.kid ∧ h2.pwk = hm.pwk ∧ h2.x5u = hm.x5u ∧
      h2.custom = ainsertAll h.custom hm.custom := by
  unfold headerDecode at hdec
  by_cases h0 : msg = []
  · rw [if_pos h0] at hdec
    simp at hdec
  · rw [if_neg h0] at hdec
    cases hist : parseInstanceMsg msg with
    | none =>
      rw [hist] at hdec
      simp at hdec
    | some ist =>
      rw [hist] at hdec
      dsimp only at hdec
      cases hhm : parseHeaderMsg ist.head with
      | none =>
        rw [hhm] at hdec
        simp at hdec
      | some hm =>
        rw [hhm] at hdec
        dsimp only at hdec
        refine ⟨ist, hm, rfl, hhm, ?_⟩
        by_cases hbc : ist.custom = []
        · rw [if_pos hbc] at hdec
          have hX := congrArg Prod.snd hdec
          dsimp only at hX
          rw [← hX]
          exact ⟨rfl, rfl, rfl, rfl, rfl⟩
        · rw [if_neg hbc] at hdec
          cases hpa : parseAny ist.custom with
          | none =>
            rw [hpa] at hdec
            simp at hdec
          | some a =>
            rw [hpa] at hdec
            dsimp only at hdec
            have hX := congrArg Prod.snd hdec
            dsimp only at hX
            rw [← hX]
            exact ⟨rfl, rfl, rfl, rfl, rfl⟩

/-- Characterization of a successful `PWTPayloadBase::Decode` on arbitrary
input: scalar fields replaced, custom pairs folded in with `insert`, the
audience decoded from the repeated section when non-empty and from the
scalar otherwise, and the three timestamps stored unconditionally from the
(possibly default) message values. -/
theorem payloadDecode_success (p : PayloadState) (msg : Str) (p2 : PayloadState)
    (hdec : payloadDecode p msg = (true, p2)) :
    ∃ ist pm, parseInstanceMsg msg = some ist ∧
      parsePayloadMsg ist.head = some pm ∧
      p2.iss = pm.iss ∧ p2.sub = pm.sub ∧ p2.pbi = pm.pbi ∧
      p2.custom = ainsertAll p.custom pm.custom ∧
      p2.aud = (if pm.audVec.length > 0 then Aud.list pm.audVec
                else Aud.scalar pm.aud) ∧
      p2.exp = some (pm.exp.getD ⟨0, 0⟩) ∧
      p2.nbf = some (pm.nbf.getD ⟨0, 0⟩) ∧
      p2.iat = some (pm.iat.getD ⟨0, 0⟩) := by
  unfold payloadDecode at hdec
  by_cases h0 : msg = []
  · rw [if_pos h0] at hdec
    simp at hdec
  · rw [if_neg h0] at hdec
    cases hist : parseInstanceMsg msg with
    | none =>
      rw [hist] at hdec
      simp at hdec
    | some ist =>
      rw [hist] at hdec
      dsimp only at hdec
      cases hpm : parsePayloadMsg ist.head with
      | none =>
        rw [hpm] at hdec
        simp at hdec
      | some pm =>
        rw [hpm] at hdec
        dsimp only at hdec
        refine ⟨ist, pm, rfl, hpm, ?_⟩
        by_cases hbc : ist.custom = []
        · rw [if_pos hbc] at hdec
          have hX := congrArg Prod.snd hdec
          dsimp only at hX
          rw [← hX]
          exact ⟨rfl, rfl, rfl, rfl, rfl, rfl, rfl, rfl⟩
        · rw [if_neg hbc] at hdec
          cases hpa : parseAny ist.custom with
          | none =>
            rw [hpa] at hdec
            simp at hdec
          | some a =>
            rw [hpa] at hdec
            dsimp only at hdec
            have hX := congrArg Prod.snd hdec
            dsimp only at hX
            rw [← hX]
            exact ⟨rfl, rfl, rfl, rfl, rfl, rfl, rfl, rfl⟩

/-- C7: for every successfully decoded payload message, a non-empty
repeated-audience section decodes as the list of its entries, and an
empty one decodes as the scalar audience string (even when empty). -/
theorem payloadDecode_audience_rule (p : PayloadState) (msg : Str)
    (p2 : PayloadState) (hdec : payloadDecode p msg = (true, p2)) :
    ∃ ist pm, parseInstanceMsg msg = some ist ∧
      parsePayloadMsg ist.head = some pm ∧
      (pm.audVec ≠ [] → p2.aud = .list pm.audVec) ∧
      (pm.audVec = [] → p2.aud = .scalar pm.aud) := by
  obtain ⟨ist, pm, h1, h2, _, _, _, _, haud, _⟩ :=
    payloadDecode_success p msg p2 hdec
  refine ⟨ist, pm, h1, h2, ?_, ?_⟩
  · intro hne
    rw [haud, if_pos (List.length_pos.mpr hne)]
  · intro hnil
    rw [haud, if_neg (by simp [hnil])]

theorem payloadDecode_audience_rule_witness :
    ∃ ist pm, parseInstanceMsg
        (payloadEncode ⟨[], [], [1], .scalar [5], none, none, none, [], none⟩)
        = some ist ∧
      parsePayloadMsg ist.head = some pm ∧
      (pm.audVec ≠ [] →
        (⟨[], [], [1], .scalar [5], some ⟨0, 0⟩, some ⟨0, 0⟩, some ⟨0, 0⟩, [], none⟩
          : PayloadState).aud = .list pm.audVec) ∧
      (pm.audVec = [] →
        (⟨[], [], [1], .scalar [5], some ⟨0, 0⟩, some ⟨0, 0⟩, some ⟨0, 0⟩, [], none⟩
          : PayloadState).aud = .scalar pm.aud) :=
  payloadDecode_audience_rule
    ⟨[], [], [], .scalar [], none, none, none, [], none⟩
    (payloadEncode ⟨[], [], [1], .scalar [5], none, none, none, [], none⟩)
    ⟨[], [], [1], .scalar [5], some ⟨0, 0⟩, some ⟨0, 0⟩, some ⟨0, 0⟩, [], none⟩
    (by decide)

/-- C3 counterexample: decoding a message whose custom section carries the
single pair ([107], [2]) into a header whose map already holds
([107], [1]) succeeds, yet the resulting map still holds the old pair and
is not the set of pairs carried by the message: `Decode` never clears the
receiver's map and `insert` keeps existing entries. -/
theorem headerDecode_keeps_prior_entry :
    (headerDecode ⟨[], [], [], [], [([107], [1])], none⟩
        (headerEncode ⟨[80], [], [], [], [([107], [2])], none⟩)).1 = true ∧
    (headerDecode ⟨[], [], [], [], [([107], [1])], none⟩
        (headerEncode ⟨[80], [], [], [], [([107], [2])], none⟩)).2.custom
      = [([107], [1])] ∧
    (headerDecode ⟨[], [], [], [], [([107], [1])], none⟩
        (headerEncode ⟨[80], [], [], [], [([107], [2])], none⟩)).2.custom
      ≠ [([107], [2])] := by decide

/-- C3 (amended): a successful `Decode` replaces every scalar field in
place, but merges the message's custom pairs into the receiver's map with
insert-if-absent semantics - existing entries persist and colliding keys
keep their old values; the map equals exactly the message's pairs only
when it was empty before the call (and the message keys are distinct). -/
theorem decode_inserts_into_custom_map :
    (∀ (h : HeaderState) (msg : Str) (h2 : HeaderState),
      headerDecode h msg = (true, h2) →
      ∃ ist hm, parseInstanceMsg msg = some ist ∧
        parseHeaderMsg ist.head = some hm ∧
        h2.typ = hm.typ ∧ h2.kid = hm.kid ∧ h2.pwk = hm.pwk ∧ h2.x5u = hm.x5u ∧
        h2.custom = ainsertAll h.custom hm.custom ∧
        (h.custom = [] → (hm.custom.map Prod.fst).Nodup →
          h2.custom = hm.custom)) ∧
    (∀ (p : PayloadState) (msg : Str) (p2 : PayloadState),
      payloadDecode p msg = (true, p2) →
      ∃ ist pm, parseInstanceMsg msg = some ist ∧
        parsePayloadMsg ist.head = some pm ∧
        p2.iss = pm.iss ∧ p2.sub = pm.sub ∧ p2.pbi = pm.pbi ∧
        p2.custom = ainsertAll p.custom pm.custom ∧
        (p.custom = [] → (pm.custom.map Prod.fst).Nodup →
          p2.custom = pm.custom)) := by
  constructor
  · intro h msg h2 hdec
    obtain ⟨ist, hm, h1, h2m, ht, hk, hp, hx, hc⟩ :=
      headerDecode_success h msg h2 hdec
    refine ⟨ist, hm, h1, h2m, ht, hk, hp, hx, hc, ?_⟩
    intro hemp hnd
    rw [hc, hemp, ainsertAll_nil _ hnd]
  · intro p msg p2 hdec
    obtain ⟨ist, pm, h1, h2m, hi, hs, hb, hc, _, _, _, _⟩ :=
      payloadDecode_success p msg p2 hdec
    refine ⟨ist, pm, h1, h2m, hi, hs, hb, hc, ?_⟩
    intro hemp hnd
    rw [hc, hemp, ainsertAll_nil _ hnd]

theorem decode_inserts_into_custom_map_witness :
    ∃ ist hm, parseInstanceMsg
        (headerEncode ⟨[80], [], [], [], [([107], [2])], none⟩) = some ist ∧
      parseHeaderMsg ist.head = some hm ∧
      (⟨[80], [], [], [], [([107], [2])], none⟩ : HeaderState).typ = hm.typ ∧
      (⟨[80], [], [], [], [([107], [2])], none⟩ : HeaderState).kid = hm.kid ∧
      (⟨[80], [], [], [], [([107], [2])], none⟩ : HeaderState).pwk = hm.pwk ∧
      (⟨[80], [], [], [], [([107], [2])], none⟩ : HeaderState).x5u = hm.x5u ∧
      (⟨[80], [], [], [], [([107], [2])], none⟩ : HeaderState).custom
        = ainsertAll ([] : AMap Str Str) hm.custom ∧
      (([] : AMap Str Str) = [] → (hm.custom.map Prod.fst).Nodup →
        (⟨[80], [], [], [], [([107], [2])], none⟩ : HeaderState).custom
          = hm.custom) :=
  decode_inserts_into_custom_map.1
    ⟨[], [], [], [], [], none⟩
    (headerEncode ⟨[80], [], [], [], [([107], [2])], none⟩)
    ⟨[80], [], [], [], [([107], [2])], none⟩
    (by decide)

/-- The composite of claim C1: `E.Encode()` followed by `D.Decode` on an
instance whose algorithm was obtained from `E` via `CopyAlgorithm`;
`none` when encoding crashes or throws. -/
def roundtrip (E D : InstState) : Option (Bool × InstState) :=
  match instEncode E with
  | some (.ok tok) => instDecode (copyAlgorithm D E) tok
  | _ => none

/-- C1 counterexample: on an encoder whose payload has no exp/nbf/iat set
(`exp = none` below), the round-trip decode returns true but the decoded
expiration is the epoch instant `some ⟨0, 0⟩`, not the encoder's `none`:
`PWTPayloadBase::Decode` stores `payload_msg.exp()` unconditionally, so an
unset timestamp is not reproduced exactly. -/
theorem roundtrip_drops_unset_timestamps :
    (roundtrip
        ⟨some ⟨[80, 87, 84], [], [], [], [], none⟩,
         some ⟨[], [], [1], .scalar [], none, none, none, [], none⟩,
         some ⟨[9], [], []⟩⟩
        ⟨some ⟨[], [], [], [], [], none⟩,
         some ⟨[], [], [], .scalar [], none, none, none, [], none⟩,
         some ⟨[7], [], []⟩⟩).map Prod.fst = some true ∧
    (roundtrip
        ⟨some ⟨[80, 87, 84], [], [], [], [], none⟩,
         some ⟨[], [], [1], .scalar [], none, none, none, [], none⟩,
         some ⟨[9], [], []⟩⟩
        ⟨some ⟨[], [], [], [], [], none⟩,
         some ⟨[], [], [], .scalar [], none, none, none, [], none⟩,
         some ⟨[7], [], []⟩⟩).map (fun r => r.2.payload.map PayloadState.exp)
      = some (some (some ⟨0, 0⟩)) ∧
    (⟨[], [], [1], .scalar [], none, none, none, [], none⟩
        : PayloadState).exp = none := by decide

/-- C1 (amended): the round-trip reproduces every field of `E` exactly
provided the decoder's custom maps start empty, `E`'s exp/nbf/iat are all
set, `E`'s audience is not the empty list, the key is non-empty, the
header serializes to a non-empty string, and set extension blobs
serialize non-empty: then `D.Decode(E.Encode())` returns true and the
decoded header and payload equal `E`'s, audience form, custom maps,
blobs and sub-second timestamps included. -/
theorem token_roundtrip (eh : HeaderState) (ep : PayloadState)
    (ec : AlgorithmState) (dh : HeaderState) (dp : PayloadState)
    (dc : Option AlgorithmState)
    (hkey : ec.key ≠ [])
    (hhne : serHeaderMsg ⟨eh.typ, eh.kid, eh.pwk, eh.x5u,
        customSection eh.custom⟩ ≠ [])
    (hhnd : anodup eh.custom) (hpnd : anodup ep.custom)
    (hdh : dh.custom = []) (hdp : dp.custom = [])
    (te tn ti : Ts) (hte : ep.exp = some te) (htn : ep.nbf = some tn)
    (hti : ep.iat = some ti) (haud : ep.aud ≠ Aud.list [])
    (hhblob : ∀ a, eh.blob = some a → serAny a ≠ [])
    (hpblob : ∀ a, ep.blob = some a → serAny a ≠ []) :
    roundtrip ⟨some eh, some ep, some ec⟩ ⟨some dh, some dp, dc⟩
      = some (true, ⟨some eh, some ep, some ec⟩) := by
  have hhsne : headerEncode eh ≠ [] := by
    simp only [headerEncode, serInstanceMsg]
    rw [optField, if_neg hhne]
    simp [fieldEnc]
  have hprene : headerEncode eh ++ payloadEncode ep ≠ [] := by
    intro hc
    exact hhsne (List.append_eq_nil.mp hc).1
  have hsig : instSign ec (headerEncode eh ++ payloadEncode ep)
      = .ok (evpAes256Cbc ec.key (headerEncode eh ++ payloadEncode ep)) := by
    unfold instSign
    rw [if_neg hprene]
    unfold algEncrypt
    rw [if_neg hkey, if_neg hprene]
  have henc : instEncode ⟨some eh, some ep, some ec⟩
      = some (.ok (serPWTMsg ⟨headerEncode eh, payloadEncode ep,
          evpAes256Cbc ec.key (headerEncode eh ++ payloadEncode ep)⟩)) := by
    show (match instSign ec (headerEncode eh ++ payloadEncode ep) with
      | Except.error e => some (Except.error e)
      | Except.ok sig => some (Except.ok (serPWTMsg
          ⟨headerEncode eh, payloadEncode ep, sig⟩))) = _
    rw [hsig]
  have htokne : serPWTMsg ⟨headerEncode eh, payloadEncode ep,
      evpAes256Cbc ec.key (headerEncode eh ++ payloadEncode ep)⟩ ≠ [] := by
    simp only [serPWTMsg]
    rw [optField, if_neg hhsne]
    simp [fieldEnc]
  have hhdec := headerDecode_headerEncode eh dh hhnd hdh hhne hhblob
  have hpdec := payloadDecode_payloadEncode ep dp hpnd hdp te tn ti hte htn hti
    haud hpblob
  unfold roundtrip
  rw [henc]
  show instDecode ⟨some dh, some dp, some ec⟩
      (serPWTMsg ⟨headerEncode eh, payloadEncode ep,
        evpAes256Cbc ec.key (headerEncode eh ++ payloadEncode ep)⟩) = _
  unfold instDecode
  rw [if_neg htokne, parsePWTMsg_serPWTMsg]
  dsimp only
  rw [hsig]
  dsimp only
  rw [if_pos rfl, hhdec]
  dsimp only
  rw [hpdec]

theorem token_roundtrip_witness :
    roundtrip
        ⟨some ⟨[80, 87, 84], [107, 49], [], [], [([97], [98])], some ⟨[3], [4]⟩⟩,
         some ⟨[105], [115], [112], .list [[120], [121]], some ⟨10, 1⟩,
           some ⟨2, 3⟩, some ⟨4, 5⟩, [([99], [100])], none⟩,
         some ⟨[42], [], []⟩⟩
        ⟨some ⟨[], [], [], [], [], none⟩,
         some ⟨[], [], [], .scalar [], none, none, none, [], none⟩,
         some ⟨[13], [], []⟩⟩
      = some (true,
        ⟨some ⟨[80, 87, 84], [107, 49], [], [], [([97], [98])], some ⟨[3], [4]⟩⟩,
         some ⟨[105], [115], [112], .list [[120], [121]], some ⟨10, 1⟩,
           some ⟨2, 3⟩, some ⟨4, 5⟩, [([99], [100])], none⟩,
         some ⟨[42], [], []⟩⟩) :=
  token_roundtrip
    ⟨[80, 87, 84], [107, 49], [], [], [([97], [98])], some ⟨[3], [4]⟩⟩
    ⟨[105], [115], [112], .list [[120], [121]], some ⟨10, 1⟩,
      some ⟨2, 3⟩, some ⟨4, 5⟩, [([99], [100])], none⟩
    ⟨[42], [], []⟩
    ⟨[], [], [], [], [], none⟩
    ⟨[], [], [], .scalar [], none, none, none, [], none⟩
    (some ⟨[13], [], []⟩)
    (by decide) (by decide) (by decide) (by decide) rfl rfl
    ⟨10, 1⟩ ⟨2, 3⟩ ⟨4, 5⟩ rfl rfl rfl (by decide)
    (by intro a ha; injection ha with h2; subst h2; decide)
    (fun a ha => nomatch ha)

end Wind
